import Mathlib

/-!
# Verification of the tinyrenderer rasterizer (`src/main.rs`)

Shallow embedding of the Rust sources.  Design notes on faithfulness:

* Colors (`glam::Vec3` of `f32`) are modelled with exact rational components
  (`Vec3q`).  Every color value reached by the theorems below is a dyadic
  rational that is exactly representable in `f32`, and the arithmetic the
  source performs on it (`white() * intensity`, `256.0 * clamp …`) is exact
  in `f32` at those values; the spots where `f32` rounding could matter are
  analysed in comments at the corresponding definitions.

* `Vec<Vec3>` framebuffer storage is modelled as the map `ℕ → Vec3q` from
  flat index to stored value (the length, `width * height`, is carried by the
  `Image` structure; `Vec::swap` and `data[index] = pixel` act pointwise).

* The barycentric inside-test of `Renderer::triangle` is computed by the
  source in `f32` from integer pixel coordinates.  For coordinates below
  2^11 (the binary's framebuffer is 800×800) all three cross-product
  components are integers of magnitude < 2^23, hence exact in `f32`, and the
  subsequent sign tests of the three quotients agree with the exact rational
  sign tests; the full argument, including the division-by-zero (infinity /
  NaN) behaviour for degenerate triangles, is given at `insideP` below.
-/

set_option linter.unusedVariables false

namespace TinyRenderer

/-- Exact model of a `glam::Vec3` of `f32` values. -/
structure Vec3q where
  x : ℚ
  y : ℚ
  z : ℚ
deriving DecidableEq

theorem Vec3q.ext_xyz {a b : Vec3q} (hx : a.x = b.x) (hy : a.y = b.y) (hz : a.z = b.z) :
    a = b := by
  cases a; cases b; simp_all

/-- Componentwise subtraction (`glam::Vec3: Sub`). -/
def v3sub (a b : Vec3q) : Vec3q := ⟨a.x - b.x, a.y - b.y, a.z - b.z⟩

/-- `Vec3 * f32` componentwise scaling (used as `white() * intensity`). -/
def v3smul (a : Vec3q) (s : ℚ) : Vec3q := ⟨a.x * s, a.y * s, a.z * s⟩

/-- `glam` cross product: `(a.y b.z - a.z b.y, a.z b.x - a.x b.z, a.x b.y - a.y b.x)`. -/
def crossQ (a b : Vec3q) : Vec3q :=
  ⟨a.y * b.z - a.z * b.y, a.z * b.x - a.x * b.z, a.x * b.y - a.y * b.x⟩

/-- `white()` = `vec3(1.0, 1.0, 1.0)`. -/
def white : Vec3q := ⟨1, 1, 1⟩

/-- `red()` = `vec3(1.0, 0.0, 0.0)`. -/
def red : Vec3q := ⟨1, 0, 0⟩

/-- The channel of the background color `vec3(0.1, 0.1, 0.1)`:
the `f32` literal `0.1` is exactly `13421773 / 2^27`. -/
def bgVal : ℚ := 13421773 / 134217728

/-- The `f32` literal `0.999` of `Image::write` is exactly `16760439 / 2^24`. -/
def q0999 : ℚ := 16760439 / 16777216

/-- `fn clamp(x, min, max)` from `main.rs` (exact: comparisons and the
returned values involve no `f32` rounding). -/
def clamp (x mn mx : ℚ) : ℚ :=
  if x < mn then mn else if x > mx then mx else x

/-- `fn find_box(a, b, c)`: the minimal rectangle containing the
three points, as `((min_x, min_y), (max_x, max_y))` over `usize`. -/
def find_box (a b c : ℕ × ℕ) : (ℕ × ℕ) × (ℕ × ℕ) :=
  ((min a.1 (min b.1 c.1), min a.2 (min b.2 c.2)),
   (max a.1 (max b.1 c.1), max a.2 (max b.2 c.2)))

/-- `struct Image`: `data: Vec<Vec3>` modelled as flat-index ↦ value,
with `width`/`height` carried alongside (the `Vec` always has length
`width * height`). -/
structure Image where
  data : ℕ → Vec3q
  width : ℕ
  height : ℕ

/-- `Image::new`: storage initialized to `vec3(0.1, 0.1, 0.1)`. -/
def Image.new (w h : ℕ) : Image :=
  ⟨fun _ => ⟨bgVal, bgVal, bgVal⟩, w, h⟩

/-- `Image::set(col, row, pixel)`: `data[row * width + col] = pixel`
(unconditional overwrite, no bounds check). -/
def Image.set (img : Image) (col row : ℕ) (pixel : Vec3q) : Image :=
  { img with data := fun k => if k = row * img.width + col then pixel else img.data k }

/-- One `Vec::swap(i, j)` on the pointwise storage model. -/
def vecSwap {α : Type} (f : ℕ → α) (i j : ℕ) : ℕ → α :=
  fun k => if k = i then f j else if k = j then f i else f k

/-- The inner loop of `Image::flip_horizontally`:
`for col in 0..width { data.swap(idx + col, bottom_idx + col) }`. -/
def rowSwap {α : Type} (f : ℕ → α) (idx bidx w : ℕ) : ℕ → α :=
  (List.range w).foldl (fun g col => vecSwap g (idx + col) (bidx + col)) f

/-- The outer loop of `Image::flip_horizontally`:
`for row in 0..((height + 1) / 2) { … }` with `idx = row * width` and
`bottom_idx = (height - row - 1) * width`. -/
def flipData {α : Type} (w h : ℕ) (f : ℕ → α) : ℕ → α :=
  (List.range ((h + 1) / 2)).foldl
    (fun g row => rowSwap g (row * w) ((h - row - 1) * w) w) f

/-- `Image::flip_horizontally` (the source's name; it exchanges rows,
i.e. performs the vertical flip the spec describes). -/
def Image.flip_horizontally (img : Image) : Image :=
  { img with data := flipData img.width img.height img.data }

/-! ## The barycentric computation of `Renderer::triangle`

The closure builds `xs = (c.x - a.x, b.x - a.x, a.x - p.x)` and
`ys = (c.y - a.y, b.y - a.y, a.y - p.y)` (as `f32` from `usize`
coordinates), takes `u = xs.cross(ys)` and returns
`(1 - (u.x + u.y)/u.z, u.y/u.z, u.x/u.z)`; the pixel is skipped when any
component is `< 0.0`.  For coordinates < 2^11 every product above is an
integer of magnitude < 2^23, so `u` is computed exactly.  We model `u`
over `ℤ`. -/

/-- `u.x = xs.y * ys.z - xs.z * ys.y = (b.x-a.x)(a.y-p.y) - (a.x-p.x)(b.y-a.y)`. -/
def uxOf (a b c p : ℕ × ℕ) : ℤ :=
  ((b.1 : ℤ) - (a.1 : ℤ)) * ((a.2 : ℤ) - (p.2 : ℤ)) -
    ((a.1 : ℤ) - (p.1 : ℤ)) * ((b.2 : ℤ) - (a.2 : ℤ))

/-- `u.y = xs.z * ys.x - xs.x * ys.z = (a.x-p.x)(c.y-a.y) - (c.x-a.x)(a.y-p.y)`. -/
def uyOf (a b c p : ℕ × ℕ) : ℤ :=
  ((a.1 : ℤ) - (p.1 : ℤ)) * ((c.2 : ℤ) - (a.2 : ℤ)) -
    ((c.1 : ℤ) - (a.1 : ℤ)) * ((a.2 : ℤ) - (p.2 : ℤ))

/-- `u.z = xs.x * ys.y - xs.y * ys.x = (c.x-a.x)(b.y-a.y) - (b.x-a.x)(c.y-a.y)`;
independent of `p` (twice the signed triangle area). -/
def uzOf (a b c : ℕ × ℕ) : ℤ :=
  ((c.1 : ℤ) - (a.1 : ℤ)) * ((b.2 : ℤ) - (a.2 : ℤ)) -
    ((b.1 : ℤ) - (a.1 : ℤ)) * ((c.2 : ℤ) - (a.2 : ℤ))

/-- The weight triple `(1 - (u.x+u.y)/u.z, u.y/u.z, u.x/u.z)` returned by the
`barycentric` closure, as exact rationals (meaningful when `uzOf ≠ 0`;
see `insideP` for the `u.z = 0` behaviour of the `f32` code). -/
def baryW (a b c p : ℕ × ℕ) : ℚ × ℚ × ℚ :=
  (1 - ((uxOf a b c p : ℚ) + (uyOf a b c p : ℚ)) / (uzOf a b c : ℚ),
   (uyOf a b c p : ℚ) / (uzOf a b c : ℚ),
   (uxOf a b c p : ℚ) / (uzOf a b c : ℚ))

/-- The inside-test of the inner loop: the pixel is written unless
`b.x < 0 ∨ b.y < 0 ∨ b.z < 0` in `f32`.

* `u.z ≠ 0`: the quotient signs are exact, so
  `b.y < 0 ↔ u.y * u.z < 0`, `b.z < 0 ↔ u.x * u.z < 0`, and
  `b.x < 0 ↔ (u.x+u.y)/u.z > 1 ↔ (u.x+u.y-u.z) * u.z > 0`.
  (`(u.x+u.y)/u.z > 1` exactly iff its `f32` rounding exceeds `1`: the exact
  quotient is at least `1/|u.z| ≥ 2^-23` away from `1`, while the rounding
  error is at most `2^-24` in `[1,2)`, and rounding is monotone.)

* `u.z = 0` (the `f32` zero of either sign): each quotient is `±∞` or `NaN`.
  Working through IEEE semantics (`q/±0 = ±∞` by sign of `q`, `0/0 = NaN`,
  `1 - ±∞ = ∓∞`, and `NaN < 0`, `∞ < 0` false, `-∞ < 0` true), the three
  rejection tests reduce — for either sign of the zero — to: the pixel is
  written iff `u.x = 0 ∧ u.y = 0`. -/
def insideP (a b c p : ℕ × ℕ) : Prop :=
  if uzOf a b c = 0 then uxOf a b c p = 0 ∧ uyOf a b c p = 0
  else ¬((uxOf a b c p + uyOf a b c p - uzOf a b c) * uzOf a b c > 0 ∨
         uyOf a b c p * uzOf a b c < 0 ∨
         uxOf a b c p * uzOf a b c < 0)

instance (a b c p : ℕ × ℕ) : Decidable (insideP a b c p) :=
  inferInstanceAs (Decidable
    (if uzOf a b c = 0 then uxOf a b c p = 0 ∧ uyOf a b c p = 0
     else ¬((uxOf a b c p + uyOf a b c p - uzOf a b c) * uzOf a b c > 0 ∨
            uyOf a b c p * uzOf a b c < 0 ∨
            uxOf a b c p * uzOf a b c < 0)))

/-- The pixels `(x, y)` visited by the double loop
`for y in min.1..(max.1 + 1) { for x in min.0..(max.0 + 1) { … } }`. -/
def pixelsInBox (mn mx : ℕ × ℕ) : List (ℕ × ℕ) :=
  (List.range' mn.2 (mx.2 + 1 - mn.2)).flatMap fun y =>
    (List.range' mn.1 (mx.1 + 1 - mn.1)).map fun x => (x, y)

/-- The post-adjustment maximum corner: `if max.0 == width - 1 { max.0 -= 1 }`
and likewise for rows. -/
def adjMax (w h : ℕ) (mx : ℕ × ℕ) : ℕ × ℕ :=
  (if mx.1 = w - 1 then mx.1 - 1 else mx.1,
   if mx.2 = h - 1 then mx.2 - 1 else mx.2)

/-- `Renderer::triangle` (which delegates its writes to `Image::set`):
degenerate bounding boxes return immediately, the maximum corner is
pulled off the last column/row, and every pixel of the remaining box
passing the barycentric inside-test is overwritten with `color`. -/
def Image.triangle (img : Image) (a b c : ℕ × ℕ) (color : Vec3q) : Image :=
  let box := find_box a b c
  if box.1.1 = box.2.1 ∨ box.1.2 = box.2.2 then img
  else
    (pixelsInBox box.1 (adjMax img.width img.height box.2)).foldl
      (fun im p => if insideP a b c p then im.set p.1 p.2 color else im) img

/-! ## Remaining definitions: line drawer, serialization, mesh-face pipeline -/

/-- Index `k` of the framebuffer is overwritten by
`Renderer::triangle a b c` on a `w × h` target: the bounding box is not
degenerate, and some visited pixel of the adjusted box passes the
inside-test and has flat index `k`. -/
def triWrites (w h : ℕ) (a b c : ℕ × ℕ) (k : ℕ) : Prop :=
  ¬((find_box a b c).1.1 = (find_box a b c).2.1 ∨
    (find_box a b c).1.2 = (find_box a b c).2.2) ∧
  ∃ p ∈ pixelsInBox (find_box a b c).1 (adjMax w h (find_box a b c).2),
      insideP a b c p ∧ p.2 * w + p.1 = k

instance (w h : ℕ) (a b c : ℕ × ℕ) (k : ℕ) : Decidable (triWrites w h a b c k) :=
  inferInstanceAs (Decidable
    (¬((find_box a b c).1.1 = (find_box a b c).2.1 ∨
       (find_box a b c).1.2 = (find_box a b c).2.2) ∧
     ∃ p ∈ pixelsInBox (find_box a b c).1 (adjMax w h (find_box a b c).2),
       insideP a b c p ∧ p.2 * w + p.1 = k))

/-- `p` is a strict convex combination of the three vertices
(the spec's "strictly inside a triangle"). -/
def strictlyInside (a b c p : ℕ × ℕ) : Prop :=
  ∃ α β γ : ℚ, 0 < α ∧ 0 < β ∧ 0 < γ ∧ α + β + γ = 1 ∧
    (p.1 : ℚ) = α * a.1 + β * b.1 + γ * c.1 ∧
    (p.2 : ℚ) = α * a.2 + β * b.2 + γ * c.2

/-- `p` lies in the convex hull of the three vertices. -/
def inConvexHull (a b c p : ℕ × ℕ) : Prop :=
  ∃ α β γ : ℚ, 0 ≤ α ∧ 0 ≤ β ∧ 0 ≤ γ ∧ α + β + γ = 1 ∧
    (p.1 : ℚ) = α * a.1 + β * b.1 + γ * c.1 ∧
    (p.2 : ℚ) = α * a.2 + β * b.2 + γ * c.2

/-- The destination index of framebuffer cell `k` under the row exchange of
`flip_horizontally` (same column, mirrored row). -/
def mirrorIdx (w h k : ℕ) : ℕ := (h - 1 - k / w) * w + k % w

/-- The iteration of `Renderer::line` after normalization: plots `(x, y)`,
then `error2 += derror2; if error2 > dx { y += y_step; error2 -= dx * 2 }`.
`n` is the number of remaining iterations (`x1 + 1 - x0`), `y` and `error2`
are the `i32` loop state, modelled on `ℤ`. -/
def lineLoopAux (ystep dx derror2 : ℤ) : ℕ → ℕ → ℤ → ℤ → List (ℕ × ℤ)
  | 0, _, _, _ => []
  | n + 1, x, y, err =>
      (x, y) ::
        (if err + derror2 > dx then
          lineLoopAux ystep dx derror2 n (x + 1) (y + ystep) (err + derror2 - dx * 2)
        else
          lineLoopAux ystep dx derror2 n (x + 1) y (err + derror2))

/-- The loop of `Renderer::line` after both normalizations, on endpoints
`r0, r1` with `r0.0 ≤ r1.0`: `dx`, `dy`, `derror2` and `y_step` are
recomputed from the normalized endpoints, and the loop runs from `r0.0` to
`r1.0` inclusive. -/
def lineCore (r0 r1 : ℕ × ℕ) : List (ℕ × ℤ) :=
  lineLoopAux (if r1.2 > r0.2 then 1 else -1) ((r1.1 : ℤ) - (r0.1 : ℤ))
    ((((r1.2 : ℤ) - (r0.2 : ℤ)).natAbs : ℤ) * 2) (r1.1 + 1 - r0.1) r0.1 (r0.2 : ℤ) 0

/-- The left-to-right normalization of `Renderer::line`:
`if x0 > x1 { swap the endpoints }`. -/
def lineRun (q0 q1 : ℕ × ℕ) : List (ℕ × ℤ) :=
  if q0.1 > q1.1 then lineCore q1 q0 else lineCore q0 q1

/-- The sequence of pixels written by `Renderer::line p0 p1` (as the
arguments passed to `Image::set`; the `y as usize` cast in the source is
injective on the reachable `i32` values, so `ℤ` coordinates model the
written cells faithfully).  Mirrors the source exactly: the steep test on
the original endpoints with conditional transposition, the left-to-right
swap, then the error-accumulation loop; in the steep case the pixel is
written transposed (`set(y, x)`). -/
def linePixels (p0 p1 : ℕ × ℕ) : List (ℤ × ℤ) :=
  if ((p1.1 : ℤ) - (p0.1 : ℤ)).natAbs < ((p1.2 : ℤ) - (p0.2 : ℤ)).natAbs then
    (lineRun (p0.2, p0.1) (p1.2, p1.1)).map fun q => ((q.2 : ℤ), (q.1 : ℤ))
  else
    (lineRun p0 p1).map fun q => ((q.1 : ℤ), (q.2 : ℤ))

/-- One output channel of `Image::write`: `256.0 * clamp(v, 0.0, 0.999)`,
then `as u8`.  The clamped product lies in `[0, 255.75]`, so the saturating
`u8` cast is plain truncation toward zero, i.e. the floor. -/
def channelByte (v : ℚ) : ℕ := (⌊256 * clamp v 0 q0999⌋).toNat

/-- The text emitted for one pixel: `write!(w, "{} {} {} ", r, g, b)`
(three channel bytes, space-separated, with a trailing blank). -/
def pixelString (v : Vec3q) : String :=
  toString (channelByte v.x) ++ " " ++ toString (channelByte v.y) ++ " " ++
    toString (channelByte v.z) ++ " "

/-- The text emitted for row `r`: the pixels of the row in order, then a
newline (`writeln!(w, "")`).  Row `r` of the `chunks(width)` iteration
holds the cells `r * width + c` for `c < width`. -/
def rowString (img : Image) (r : ℕ) : String :=
  String.join ((List.range img.width).map fun c => pixelString (img.data (r * img.width + c)))
    ++ "\n"

/-- `Image::write`: the `P3` magic token line, the dimensions line, the
maximum channel value `255`, then all rows. -/
def Image.write (img : Image) : String :=
  "P3\n" ++ (toString img.width ++ " " ++ toString img.height ++ "\n") ++ "255\n" ++
    String.join ((List.range img.height).map (rowString img))

/-- The `translate` closure of `Renderer::obj`:
`x = (vertex.x + 1.0) / 2.0 * (width - 1) as f32`, then `as usize`
(truncation toward zero, saturating at 0; for the nonnegative values
reached here this is the floor).  At the dyadic inputs used below every
`f32` operation is exact. -/
def translate (w h : ℕ) (v : Vec3q) : ℕ × ℕ :=
  ((⌊(v.x + 1) / 2 * ((w : ℚ) - 1)⌋).toNat, (⌊(v.y + 1) / 2 * ((h : ℚ) - 1)⌋).toNat)

/-- `glam` dot product. -/
def dotQ (a b : Vec3q) : ℚ := a.x * b.x + a.y * b.y + a.z * b.z

/-- The light intensity of a face with cross product `cr`
(`normal = cr.normalize()`, `intensity = normal.dot(vec3(0,0,-1)) = -cr.z / |cr|`).
The length is modelled by the exact rational square root: at every input
used by the theorems below `dotQ cr cr` is the square of a rational, where
the `f32` square root is also exact. -/
def faceIntensity (cr : Vec3q) : ℚ := -cr.z / Rat.sqrt (dotQ cr cr)

/-- The branch `if intensity.is_sign_positive()` of `Renderer::obj`,
decided from the exact cross product:

* `cr.z < 0`: intensity is strictly positive — drawn.
* `cr.z > 0`: intensity is strictly negative — not drawn.
* `cr = (0,0,0)`: `normalize` divides `0.0` by `0.0`; the resulting NaN has
  a set sign bit on the reference platform (x86 default quiet NaN), and it
  propagates through the dot product, so `is_sign_positive()` is false.
* `cr.z = 0`, `cr ≠ 0`: the dot product is a sum of three signed zeros
  `(n.x * 0) + (n.y * 0) + (n.z * -1)`, which is `-0.0` only if all three
  terms are `-0.0`.  The computed zero `cr.z` (a difference of two equal
  products) is `+0.0`, so the third term is `-0.0`; the first two terms are
  `-0.0` exactly when the corresponding component is negative (a computed
  zero component is again `+0.0`).  Hence the face is drawn unless both
  `cr.x < 0` and `cr.y < 0`. -/
def drawsFace (cr : Vec3q) : Prop :=
  cr.z < 0 ∨ (cr.z = 0 ∧ cr ≠ ⟨0, 0, 0⟩ ∧ ¬(cr.x < 0 ∧ cr.y < 0))

instance (cr : Vec3q) : Decidable (drawsFace cr) :=
  inferInstanceAs (Decidable
    (cr.z < 0 ∨ (cr.z = 0 ∧ cr ≠ ⟨0, 0, 0⟩ ∧ ¬(cr.x < 0 ∧ cr.y < 0))))

/-- The `Primitive::Triangle` arm of `Renderer::obj` for one face with
(already `f32`-converted) vertices `p1, p2, p3`: back-face test on
`normal.dot(light_direction)`, then a flat-shaded triangle with color
`white() * intensity`. -/
def objFace (img : Image) (p1 p2 p3 : Vec3q) : Image :=
  let cr := crossQ (v3sub p3 p1) (v3sub p2 p1)
  if drawsFace cr then
    img.triangle (translate img.width img.height p1) (translate img.width img.height p2)
      (translate img.width img.height p3) (v3smul white (faceIntensity cr))
  else img

/-! ## Basic lemmas about the storage model -/

theorem Image.ext_whd {a b : Image} (hw : a.width = b.width) (hh : a.height = b.height)
    (hd : a.data = b.data) : a = b := by
  cases a; cases b; simp_all

theorem Image.set_data (img : Image) (col row : ℕ) (pixel : Vec3q) (k : ℕ) :
    (img.set col row pixel).data k
      = if k = row * img.width + col then pixel else img.data k := rfl

theorem mem_pixelsInBox {mn mx p : ℕ × ℕ} :
    p ∈ pixelsInBox mn mx ↔
      (mn.1 ≤ p.1 ∧ p.1 ≤ mx.1) ∧ mn.2 ≤ p.2 ∧ p.2 ≤ mx.2 := by
  obtain ⟨x, y⟩ := p
  simp only [pixelsInBox, List.mem_flatMap, List.mem_map, List.mem_range'_1, Prod.mk.injEq]
  constructor
  · rintro ⟨a, ha, b, hb, hbx, hay⟩
    subst hbx; subst hay
    omega
  · rintro ⟨⟨h1, h2⟩, h3, h4⟩
    exact ⟨y, by omega, x, by omega, rfl, rfl⟩

theorem idx_inj {w x y px py : ℕ} (hx : x < w) (hpx : px < w)
    (h : py * w + px = y * w + x) : px = x ∧ py = y := by
  rw [Nat.mul_comm py w, Nat.mul_comm y w] at h
  have hmod : (w * py + px) % w = (w * y + x) % w := by rw [h]
  rw [Nat.mul_add_mod, Nat.mul_add_mod, Nat.mod_eq_of_lt hx, Nat.mod_eq_of_lt hpx] at hmod
  subst hmod
  refine ⟨rfl, ?_⟩
  have hmul : w * py = w * y := by omega
  exact Nat.eq_of_mul_eq_mul_left (by omega) hmul

/-! ## Pointwise characterization of the triangle fill -/

theorem draw_foldl_width (a b c : ℕ × ℕ) (col : Vec3q) (ps : List (ℕ × ℕ)) :
    ∀ img : Image,
      (ps.foldl (fun im p => if insideP a b c p then im.set p.1 p.2 col else im) img).width
        = img.width := by
  induction ps with
  | nil => intro img; rfl
  | cons p ps ih =>
      intro img
      rw [List.foldl_cons, ih]
      by_cases h : insideP a b c p <;> simp [h, Image.set]

theorem draw_foldl_data (a b c : ℕ × ℕ) (col : Vec3q) (k : ℕ) (ps : List (ℕ × ℕ)) :
    ∀ img : Image,
      (ps.foldl (fun im p => if insideP a b c p then im.set p.1 p.2 col else im) img).data k
        = if ∃ p ∈ ps, insideP a b c p ∧ p.2 * img.width + p.1 = k then col
          else img.data k := by
  induction ps with
  | nil => intro img; simp
  | cons p ps ih =>
      intro img
      rw [List.foldl_cons, ih]
      have hw : (if insideP a b c p then img.set p.1 p.2 col else img).width = img.width := by
        by_cases h : insideP a b c p <;> simp [h, Image.set]
      rw [hw]
      by_cases hps : ∃ q ∈ ps, insideP a b c q ∧ q.2 * img.width + q.1 = k
      · simp [hps, List.exists_mem_cons_iff]
      · rw [if_neg hps]
        by_cases hp : insideP a b c p
        · rw [if_pos hp, Image.set_data]
          by_cases hk : p.2 * img.width + p.1 = k
          · rw [if_pos hk.symm,
              if_pos (⟨p, List.mem_cons_self _ _, hp, hk⟩ :
                ∃ q ∈ p :: ps, insideP a b c q ∧ q.2 * img.width + q.1 = k)]
          · rw [if_neg (fun hc => hk hc.symm), if_neg]
            rintro ⟨q, hq, hq1, hq2⟩
            rcases List.mem_cons.mp hq with rfl | hq'
            · exact hk hq2
            · exact hps ⟨q, hq', hq1, hq2⟩
        · rw [if_neg hp, if_neg]
          rintro ⟨q, hq, hq1, hq2⟩
          rcases List.mem_cons.mp hq with rfl | hq'
          · exact hp hq1
          · exact hps ⟨q, hq', hq1, hq2⟩

theorem triangle_width (img : Image) (a b c : ℕ × ℕ) (col : Vec3q) :
    (img.triangle a b c col).width = img.width := by
  unfold Image.triangle
  by_cases hdeg : (find_box a b c).1.1 = (find_box a b c).2.1 ∨
      (find_box a b c).1.2 = (find_box a b c).2.2
  · simp [hdeg]
  · simp only [hdeg, if_false]
    exact draw_foldl_width _ _ _ _ _ _

theorem draw_foldl_height (a b c : ℕ × ℕ) (col : Vec3q) (ps : List (ℕ × ℕ)) :
    ∀ img : Image,
      (ps.foldl (fun im p => if insideP a b c p then im.set p.1 p.2 col else im) img).height
        = img.height := by
  induction ps with
  | nil => intro img; rfl
  | cons p ps ih =>
      intro img
      rw [List.foldl_cons, ih]
      by_cases h : insideP a b c p <;> simp [h, Image.set]

theorem triangle_height (img : Image) (a b c : ℕ × ℕ) (col : Vec3q) :
    (img.triangle a b c col).height = img.height := by
  unfold Image.triangle
  by_cases hdeg : (find_box a b c).1.1 = (find_box a b c).2.1 ∨
      (find_box a b c).1.2 = (find_box a b c).2.2
  · simp [hdeg]
  · simp only [hdeg, if_false]
    exact draw_foldl_height _ _ _ _ _ _

theorem triangle_data (img : Image) (a b c : ℕ × ℕ) (col : Vec3q) (k : ℕ) :
    (img.triangle a b c col).data k
      = if triWrites img.width img.height a b c k then col else img.data k := by
  unfold Image.triangle triWrites
  by_cases hdeg : (find_box a b c).1.1 = (find_box a b c).2.1 ∨
      (find_box a b c).1.2 = (find_box a b c).2.2
  · simp [hdeg]
  · simp only [hdeg, if_false, not_false_eq_true, true_and]
    rw [draw_foldl_data]

/-! ## The barycentric weights: signs, sum, representation, uniqueness -/

theorem div_nonneg_iff_mul (x u : ℚ) (hu : u ≠ 0) : 0 ≤ x / u ↔ 0 ≤ x * u := by
  rcases hu.lt_or_lt with h | h
  · constructor
    · intro hx
      rcases div_nonneg_iff.mp hx with ⟨h1, h2⟩ | ⟨h1, h2⟩ <;> nlinarith
    · intro hxu
      have hx : x ≤ 0 := by nlinarith
      exact div_nonneg_iff.mpr (Or.inr ⟨hx, h.le⟩)
  · constructor
    · intro hx
      rcases div_nonneg_iff.mp hx with ⟨h1, h2⟩ | ⟨h1, h2⟩ <;> nlinarith
    · intro hxu
      have hx : 0 ≤ x := by nlinarith
      exact div_nonneg hx h.le

theorem insideP_iff_weights (a b c p : ℕ × ℕ) (huz : uzOf a b c ≠ 0) :
    insideP a b c p ↔
      0 ≤ (baryW a b c p).1 ∧ 0 ≤ (baryW a b c p).2.1 ∧ 0 ≤ (baryW a b c p).2.2 := by
  have huzq : ((uzOf a b c : ℤ) : ℚ) ≠ 0 := Int.cast_ne_zero.mpr huz
  have h1 : 0 ≤ (baryW a b c p).1 ↔
      ¬((uxOf a b c p + uyOf a b c p - uzOf a b c) * uzOf a b c > 0) := by
    unfold baryW
    have he : 1 - (((uxOf a b c p : ℤ) : ℚ) + ((uyOf a b c p : ℤ) : ℚ)) / ((uzOf a b c : ℤ) : ℚ)
        = (((uzOf a b c : ℤ) : ℚ) - (((uxOf a b c p : ℤ) : ℚ) + ((uyOf a b c p : ℤ) : ℚ)))
            / ((uzOf a b c : ℤ) : ℚ) := by
      field_simp
    rw [he, div_nonneg_iff_mul _ _ huzq]
    rw [show (((uzOf a b c : ℤ) : ℚ) - (((uxOf a b c p : ℤ) : ℚ) + ((uyOf a b c p : ℤ) : ℚ)))
          * ((uzOf a b c : ℤ) : ℚ)
        = -((((uxOf a b c p + uyOf a b c p - uzOf a b c) * uzOf a b c : ℤ) : ℚ)) by
      push_cast; ring]
    rw [neg_nonneg, not_lt]
    exact_mod_cast Iff.rfl
  have h2 : 0 ≤ (baryW a b c p).2.1 ↔ ¬(uyOf a b c p * uzOf a b c < 0) := by
    unfold baryW
    rw [div_nonneg_iff_mul _ _ huzq, not_lt]
    rw [show ((uyOf a b c p : ℤ) : ℚ) * ((uzOf a b c : ℤ) : ℚ)
        = (((uyOf a b c p * uzOf a b c : ℤ)) : ℚ) by push_cast; ring]
    exact_mod_cast Iff.rfl
  have h3 : 0 ≤ (baryW a b c p).2.2 ↔ ¬(uxOf a b c p * uzOf a b c < 0) := by
    unfold baryW
    rw [div_nonneg_iff_mul _ _ huzq, not_lt]
    rw [show ((uxOf a b c p : ℤ) : ℚ) * ((uzOf a b c : ℤ) : ℚ)
        = (((uxOf a b c p * uzOf a b c : ℤ)) : ℚ) by push_cast; ring]
    exact_mod_cast Iff.rfl
  unfold insideP
  rw [if_neg huz]
  rw [h1, h2, h3]
  tauto

theorem baryW_sum (a b c p : ℕ × ℕ) (huz : uzOf a b c ≠ 0) :
    (baryW a b c p).1 + (baryW a b c p).2.1 + (baryW a b c p).2.2 = 1 := by
  have huzq : ((uzOf a b c : ℤ) : ℚ) ≠ 0 := Int.cast_ne_zero.mpr huz
  unfold baryW
  field_simp
  ring

theorem baryW_repr (a b c p : ℕ × ℕ) (huz : uzOf a b c ≠ 0) :
    (p.1 : ℚ) = (baryW a b c p).1 * a.1 + (baryW a b c p).2.1 * b.1
        + (baryW a b c p).2.2 * c.1
    ∧ (p.2 : ℚ) = (baryW a b c p).1 * a.2 + (baryW a b c p).2.1 * b.2
        + (baryW a b c p).2.2 * c.2 := by
  have huzq : ((uzOf a b c : ℤ) : ℚ) ≠ 0 := Int.cast_ne_zero.mpr huz
  constructor <;>
  · unfold baryW
    field_simp
    unfold uxOf uyOf uzOf
    push_cast
    ring

theorem bary_unique (a b c p : ℕ × ℕ) (huz : uzOf a b c ≠ 0) (α β γ : ℚ)
    (hsum : α + β + γ = 1)
    (hx : (p.1 : ℚ) = α * a.1 + β * b.1 + γ * c.1)
    (hy : (p.2 : ℚ) = α * a.2 + β * b.2 + γ * c.2) :
    α = (baryW a b c p).1 ∧ β = (baryW a b c p).2.1 ∧ γ = (baryW a b c p).2.2 := by
  have huzq : ((uzOf a b c : ℤ) : ℚ) ≠ 0 := Int.cast_ne_zero.mpr huz
  obtain ⟨hrx, hry⟩ := baryW_repr a b c p huz
  have hWsum := baryW_sum a b c p huz
  set W1 := (baryW a b c p).1 with hW1
  set W2 := (baryW a b c p).2.1 with hW2
  set W3 := (baryW a b c p).2.2 with hW3
  have h0 : (α - W1) + (β - W2) + (γ - W3) = 0 := by linarith
  have hE1 : (β - W2) * ((b.1 : ℚ) - a.1) + (γ - W3) * ((c.1 : ℚ) - a.1) = 0 := by
    linear_combination hrx - hx - (a.1 : ℚ) * h0
  have hE2 : (β - W2) * ((b.2 : ℚ) - a.2) + (γ - W3) * ((c.2 : ℚ) - a.2) = 0 := by
    linear_combination hry - hy - (a.2 : ℚ) * h0
  have huzq' : ((uzOf a b c : ℤ) : ℚ)
      = ((c.1 : ℚ) - a.1) * ((b.2 : ℚ) - a.2) - ((b.1 : ℚ) - a.1) * ((c.2 : ℚ) - a.2) := by
    unfold uzOf; push_cast; ring
  have hγ : (γ - W3) * ((uzOf a b c : ℤ) : ℚ) = 0 := by
    rw [huzq']
    linear_combination ((b.2 : ℚ) - a.2) * hE1 - ((b.1 : ℚ) - a.1) * hE2
  have hβ : (β - W2) * ((uzOf a b c : ℤ) : ℚ) = 0 := by
    rw [huzq']
    linear_combination (((c.1 : ℚ) - a.1)) * hE2 - (((c.2 : ℚ) - a.2)) * hE1
  have hγ0 : γ = W3 := by
    rcases mul_eq_zero.mp hγ with h | h
    · linarith
    · exact absurd h huzq
  have hβ0 : β = W2 := by
    rcases mul_eq_zero.mp hβ with h | h
    · linarith
    · exact absurd h huzq
  refine ⟨by linarith, hβ0, hγ0⟩

theorem box_nondeg_of_uz (a b c : ℕ × ℕ) (huz : uzOf a b c ≠ 0) :
    ¬((find_box a b c).1.1 = (find_box a b c).2.1 ∨
      (find_box a b c).1.2 = (find_box a b c).2.2) := by
  rintro (h | h)
  · apply huz
    have e1 : min a.1 (min b.1 c.1) = max a.1 (max b.1 c.1) := h
    have h1 : (c.1 : ℤ) - (a.1 : ℤ) = 0 := by omega
    have h2 : (b.1 : ℤ) - (a.1 : ℤ) = 0 := by omega
    unfold uzOf
    rw [h1, h2]
    ring
  · apply huz
    have e1 : min a.2 (min b.2 c.2) = max a.2 (max b.2 c.2) := h
    have h1 : (c.2 : ℤ) - (a.2 : ℤ) = 0 := by omega
    have h2 : (b.2 : ℤ) - (a.2 : ℤ) = 0 := by omega
    unfold uzOf
    rw [h1, h2]
    ring

/-! ## Claim theorems: triangle-fill family -/

/-- C8: drawing the same triangle twice with the same color leaves the
framebuffer pixel-identical to drawing it once.  (This edition has no depth
buffer: `Image::set` is an unconditional overwrite, and the inside-test
depends only on the coordinates, never on the framebuffer contents.) -/
theorem C8_triangle_idempotent (img : Image) (a b c : ℕ × ℕ) (col : Vec3q) :
    (img.triangle a b c col).triangle a b c col = img.triangle a b c col := by
  apply Image.ext_whd
  · rw [triangle_width]
  · rw [triangle_height]
  · funext k
    rw [triangle_data, triangle_width, triangle_height, triangle_data]
    by_cases h : triWrites img.width img.height a b c k
    · simp [h]
    · simp [h]

/-- C10: the triangle fill never writes the last column (`x = width - 1`)
or the last row (`y = height - 1`): after the bounding-box adjustment every
pixel there keeps its prior value, even when a vertex lies exactly on the
framebuffer edge. -/
theorem C10_last_row_col (img : Image) (a b c : ℕ × ℕ) (col : Vec3q)
    (ha1 : a.1 < img.width) (ha2 : a.2 < img.height)
    (hb1 : b.1 < img.width) (hb2 : b.2 < img.height)
    (hc1 : c.1 < img.width) (hc2 : c.2 < img.height) :
    ∀ x y : ℕ, x < img.width → y < img.height →
      (x = img.width - 1 ∨ y = img.height - 1) →
      (img.triangle a b c col).data (y * img.width + x)
        = img.data (y * img.width + x) := by
  intro x y hx hy hedge
  rw [triangle_data, if_neg]
  rintro ⟨hdeg, p, hp, hins, hidx⟩
  rw [mem_pixelsInBox] at hp
  obtain ⟨⟨hp1a, hp1b⟩, hp2a, hp2b⟩ := hp
  push_neg at hdeg
  obtain ⟨hd1, hd2⟩ := hdeg
  have e1 : (find_box a b c).1.1 = min a.1 (min b.1 c.1) := rfl
  have e2 : (find_box a b c).1.2 = min a.2 (min b.2 c.2) := rfl
  have e3 : (find_box a b c).2.1 = max a.1 (max b.1 c.1) := rfl
  have e4 : (find_box a b c).2.2 = max a.2 (max b.2 c.2) := rfl
  have hbx : (find_box a b c).2.1 ≤ img.width - 1 := by rw [e3]; omega
  have hby : (find_box a b c).2.2 ≤ img.height - 1 := by rw [e4]; omega
  have hw2 : 2 ≤ img.width := by rw [e1, e3] at hd1; omega
  have hh2 : 2 ≤ img.height := by rw [e2, e4] at hd2; omega
  have hax : (adjMax img.width img.height (find_box a b c).2).1 ≤ img.width - 2 := by
    unfold adjMax
    dsimp only
    split <;> omega
  have hay : (adjMax img.width img.height (find_box a b c).2).2 ≤ img.height - 2 := by
    unfold adjMax
    dsimp only
    split <;> omega
  obtain ⟨hpx, hpy⟩ := idx_inj hx (by omega) hidx
  omega

/-- Witness for C10 at a concrete input: a 4×4 framebuffer and the triangle
`(0,0), (3,0), (0,3)` whose vertices lie on the framebuffer edge. -/
theorem C10_witness :
    (3 : ℕ) < 4 ∧
    ((Image.new 4 4).triangle (0, 0) (3, 0) (0, 3) red).data (1 * 4 + 3)
      = (Image.new 4 4).data (1 * 4 + 3) :=
  ⟨by omega,
   C10_last_row_col (Image.new 4 4) (0, 0) (3, 0) (0, 3) red
     (by decide) (by decide) (by decide) (by decide) (by decide) (by decide)
     3 1 (by decide) (by decide) (Or.inl (by decide))⟩

/-- C9: for a non-degenerate triangle, the computed barycentric weights of a
point strictly inside are all positive and sum to exactly 1 (so certainly
within the `1e-5` tolerance the spec allows the `f32` computation), and a
point outside the convex hull gets at least one negative weight. -/
theorem C9_barycentric_weights (a b c p : ℕ × ℕ) (huz : uzOf a b c ≠ 0) :
    (strictlyInside a b c p →
      0 < (baryW a b c p).1 ∧ 0 < (baryW a b c p).2.1 ∧ 0 < (baryW a b c p).2.2 ∧
      (baryW a b c p).1 + (baryW a b c p).2.1 + (baryW a b c p).2.2 = 1) ∧
    (¬ inConvexHull a b c p →
      (baryW a b c p).1 < 0 ∨ (baryW a b c p).2.1 < 0 ∨ (baryW a b c p).2.2 < 0) := by
  constructor
  · rintro ⟨α, β, γ, hα, hβ, hγ, hsum, hx, hy⟩
    obtain ⟨ea, eb, ec⟩ := bary_unique a b c p huz α β γ hsum hx hy
    rw [← ea, ← eb, ← ec]
    exact ⟨hα, hβ, hγ, by linarith⟩
  · intro hout
    by_contra hno
    push_neg at hno
    obtain ⟨h1, h2, h3⟩ := hno
    exact hout ⟨(baryW a b c p).1, (baryW a b c p).2.1, (baryW a b c p).2.2,
      h1, h2, h3, baryW_sum a b c p huz,
      (baryW_repr a b c p huz).1, (baryW_repr a b c p huz).2⟩

/-- Witness for C9: the triangle `(0,0), (4,0), (0,4)` (non-degenerate),
the interior point `(1,1)` and the exterior point `(9,9)`. -/
theorem C9_witness :
    uzOf (0, 0) (4, 0) (0, 4) ≠ 0 ∧
    (0 < (baryW (0, 0) (4, 0) (0, 4) (1, 1)).1 ∧
     0 < (baryW (0, 0) (4, 0) (0, 4) (1, 1)).2.1 ∧
     0 < (baryW (0, 0) (4, 0) (0, 4) (1, 1)).2.2 ∧
     (baryW (0, 0) (4, 0) (0, 4) (1, 1)).1 + (baryW (0, 0) (4, 0) (0, 4) (1, 1)).2.1
       + (baryW (0, 0) (4, 0) (0, 4) (1, 1)).2.2 = 1) ∧
    ((baryW (0, 0) (4, 0) (0, 4) (9, 9)).1 < 0 ∨
     (baryW (0, 0) (4, 0) (0, 4) (9, 9)).2.1 < 0 ∨
     (baryW (0, 0) (4, 0) (0, 4) (9, 9)).2.2 < 0) := by
  have huz : uzOf (0, 0) (4, 0) (0, 4) ≠ 0 := by decide
  refine ⟨huz, ?_, ?_⟩
  · exact (C9_barycentric_weights (0, 0) (4, 0) (0, 4) (1, 1) huz).1
      ⟨1/2, 1/4, 1/4, by norm_num, by norm_num, by norm_num, by norm_num,
        by push_cast; norm_num, by push_cast; norm_num⟩
  · refine (C9_barycentric_weights (0, 0) (4, 0) (0, 4) (9, 9) huz).2 ?_
    rintro ⟨α, β, γ, hα, hβ, hγ, hsum, hx, hy⟩
    push_cast at hx hy
    norm_num at hx hy
    linarith

theorem adjMax_eq_min (w h : ℕ) (mx : ℕ × ℕ) (hw : 2 ≤ w) (hh : 2 ≤ h)
    (hx : mx.1 ≤ w - 1) (hy : mx.2 ≤ h - 1) :
    adjMax w h mx = (min mx.1 (w - 2), min mx.2 (h - 2)) := by
  unfold adjMax
  have h1 : (if mx.1 = w - 1 then mx.1 - 1 else mx.1) = min mx.1 (w - 2) := by
    split <;> omega
  have h2 : (if mx.2 = h - 1 then mx.2 - 1 else mx.2) = min mx.2 (h - 2) := by
    split <;> omega
  rw [h1, h2]

/-- The inside-test for the concrete triangle `(10,10), (20,10), (10,20)`
is the half-plane description of its pixel set. -/
theorem insideP_example (x y : ℕ) :
    insideP (10, 10) (20, 10) (10, 20) (x, y) ↔ (10 ≤ x ∧ 10 ≤ y ∧ x + y ≤ 30) := by
  have huz : uzOf (10, 10) (20, 10) (10, 20) = -100 := by decide
  have hux : uxOf (10, 10) (20, 10) (10, 20) (x, y) = 10 * (10 - (y : ℤ)) := by
    unfold uxOf; push_cast; ring
  have huy : uyOf (10, 10) (20, 10) (10, 20) (x, y) = 10 * (10 - (x : ℤ)) := by
    unfold uyOf; push_cast; ring
  unfold insideP
  rw [huz, hux, huy]
  norm_num
  omega

/-- C1 (amended): for a non-degenerate triangle with vertices inside the
framebuffer, the fill writes `color` to exactly the pixels of the bounding
box — capped at column `width - 2` and row `height - 2` — whose barycentric
weights are all nonnegative, and leaves every other pixel unchanged; in
particular the triangle `(10,10), (20,10), (10,20)` on the 800×800 buffer
fills exactly the half-plane-described right-triangle pixel set. -/
theorem C1_triangle_fill :
    (∀ (img : Image) (a b c : ℕ × ℕ) (col : Vec3q),
      uzOf a b c ≠ 0 →
      a.1 < img.width → a.2 < img.height → b.1 < img.width → b.2 < img.height →
      c.1 < img.width → c.2 < img.height →
      ∀ x y : ℕ, x < img.width → y < img.height →
        (img.triangle a b c col).data (y * img.width + x)
          = if ((find_box a b c).1.1 ≤ x ∧ x ≤ min (find_box a b c).2.1 (img.width - 2)) ∧
               ((find_box a b c).1.2 ≤ y ∧ y ≤ min (find_box a b c).2.2 (img.height - 2)) ∧
               0 ≤ (baryW a b c (x, y)).1 ∧ 0 ≤ (baryW a b c (x, y)).2.1 ∧
               0 ≤ (baryW a b c (x, y)).2.2
            then col else img.data (y * img.width + x))
    ∧ (∀ x y : ℕ, x < 800 → y < 800 →
        ((Image.new 800 800).triangle (10, 10) (20, 10) (10, 20) red).data (y * 800 + x)
          = if 10 ≤ x ∧ 10 ≤ y ∧ x + y ≤ 30 then red
            else (Image.new 800 800).data (y * 800 + x)) := by
  constructor
  · intro img a b c col huz ha1 ha2 hb1 hb2 hc1 hc2 x y hx hy
    have hdeg := box_nondeg_of_uz a b c huz
    have e1 : (find_box a b c).1.1 = min a.1 (min b.1 c.1) := rfl
    have e2 : (find_box a b c).1.2 = min a.2 (min b.2 c.2) := rfl
    have e3 : (find_box a b c).2.1 = max a.1 (max b.1 c.1) := rfl
    have e4 : (find_box a b c).2.2 = max a.2 (max b.2 c.2) := rfl
    have hbx : (find_box a b c).2.1 ≤ img.width - 1 := by rw [e3]; omega
    have hby : (find_box a b c).2.2 ≤ img.height - 1 := by rw [e4]; omega
    have hw2 : 2 ≤ img.width := by
      have := hdeg
      push_neg at this
      rw [e1, e3] at this
      omega
    have hh2 : 2 ≤ img.height := by
      have := hdeg
      push_neg at this
      rw [e2, e4] at this
      omega
    have hadj := adjMax_eq_min img.width img.height (find_box a b c).2 hw2 hh2 hbx hby
    rw [triangle_data]
    have hcond : triWrites img.width img.height a b c (y * img.width + x) ↔
        ((find_box a b c).1.1 ≤ x ∧ x ≤ min (find_box a b c).2.1 (img.width - 2)) ∧
        ((find_box a b c).1.2 ≤ y ∧ y ≤ min (find_box a b c).2.2 (img.height - 2)) ∧
        0 ≤ (baryW a b c (x, y)).1 ∧ 0 ≤ (baryW a b c (x, y)).2.1 ∧
        0 ≤ (baryW a b c (x, y)).2.2 := by
      unfold triWrites
      constructor
      · rintro ⟨-, p, hp, hins, hidx⟩
        rw [hadj, mem_pixelsInBox] at hp
        obtain ⟨⟨h1, h2⟩, h3, h4⟩ := hp
        obtain ⟨hpx, hpy⟩ := idx_inj hx (by dsimp only at h2; omega) hidx
        obtain ⟨px, py⟩ := p
        dsimp only at h1 h2 h3 h4 hpx hpy
        rw [hpx] at h1 h2
        rw [hpy] at h3 h4
        rw [hpx, hpy] at hins
        exact ⟨⟨h1, h2⟩, ⟨h3, h4⟩, (insideP_iff_weights a b c (x, y) huz).mp hins⟩
      · rintro ⟨⟨h1, h2⟩, ⟨h3, h4⟩, hws⟩
        refine ⟨hdeg, (x, y), ?_, ?_, rfl⟩
        · rw [hadj, mem_pixelsInBox]
          exact ⟨⟨h1, h2⟩, h3, h4⟩
        · exact (insideP_iff_weights a b c (x, y) huz).mpr hws

    rw [if_congr hcond rfl rfl]
  · intro x y hx hy
    have hw : (Image.new 800 800).width = 800 := rfl
    have hh : (Image.new 800 800).height = 800 := rfl
    rw [triangle_data, hw, hh]
    have hfb : find_box (10, 10) (20, 10) (10, 20) = ((10, 10), (20, 20)) := by decide
    have hadj : adjMax 800 800 (20, 20) = (20, 20) := by decide
    have hcond : triWrites 800 800 (10, 10) (20, 10) (10, 20) (y * 800 + x) ↔
        (10 ≤ x ∧ 10 ≤ y ∧ x + y ≤ 30) := by
      unfold triWrites
      rw [hfb]
      constructor
      · rintro ⟨-, p, hp, hins, hidx⟩
        rw [show adjMax 800 800 ((10, 10), (20, 20)).2 = (20, 20) from hadj,
          mem_pixelsInBox] at hp
        obtain ⟨px, py⟩ := p
        obtain ⟨⟨h1, h2⟩, h3, h4⟩ := hp
        dsimp only at h1 h2 h3 h4 hidx
        obtain ⟨hpx, hpy⟩ := idx_inj hx (by omega) hidx
        rw [hpx, hpy] at hins
        exact (insideP_example x y).mp hins
      · rintro ⟨h1, h2, h3⟩
        refine ⟨by decide, (x, y), ?_, (insideP_example x y).mpr ⟨h1, h2, h3⟩, rfl⟩
        rw [show adjMax 800 800 ((10, 10), (20, 20)).2 = (20, 20) from hadj,
          mem_pixelsInBox]
        refine ⟨⟨h1, by dsimp only; omega⟩, h2, by dsimp only; omega⟩
    rw [if_congr hcond rfl rfl]

/-- Witness for C1's general part: the example triangle on a 64×64 buffer at
pixel `(12, 12)` (inside), which receives the color. -/
theorem C1_witness :
    uzOf (10, 10) (20, 10) (10, 20) ≠ 0 ∧
    ((Image.new 64 64).triangle (10, 10) (20, 10) (10, 20) red).data (12 * 64 + 12) = red := by
  have h := (C1_triangle_fill).1 (Image.new 64 64) (10, 10) (20, 10) (10, 20) red
    (by decide) (by decide) (by decide) (by decide) (by decide) (by decide) (by decide)
    12 12 (by decide) (by decide)
  have hw : (Image.new 64 64).width = 64 := rfl
  have hh : (Image.new 64 64).height = 64 := rfl
  rw [hw, hh] at h
  refine ⟨by decide, ?_⟩
  rw [h, if_pos]
  refine ⟨⟨by decide, by decide⟩, ⟨by decide, by decide⟩, ?_, ?_, ?_⟩ <;>
    norm_num [baryW, uxOf, uyOf, uzOf]

/-- C1 counterexample: on a 16×16 framebuffer the triangle
`(10,10), (15,10), (10,15)` has the pixel `(15, 10)` inside its bounding box
with all barycentric weights nonnegative (weights `(0, 1, 0)`), yet the fill
leaves that pixel at the background color: the claimed "exactly the bounding
box ∩ nonnegative weights" pixel set is wrong when the box reaches the last
column or row. -/
theorem C1_counterexample :
    (find_box (10, 10) (15, 10) (10, 15)).1.1 ≤ 15 ∧
    15 ≤ (find_box (10, 10) (15, 10) (10, 15)).2.1 ∧
    (find_box (10, 10) (15, 10) (10, 15)).1.2 ≤ 10 ∧
    10 ≤ (find_box (10, 10) (15, 10) (10, 15)).2.2 ∧
    0 ≤ (baryW (10, 10) (15, 10) (10, 15) (15, 10)).1 ∧
    0 ≤ (baryW (10, 10) (15, 10) (10, 15) (15, 10)).2.1 ∧
    0 ≤ (baryW (10, 10) (15, 10) (10, 15) (15, 10)).2.2 ∧
    ((Image.new 16 16).triangle (10, 10) (15, 10) (10, 15) red).data (10 * 16 + 15)
      = ⟨bgVal, bgVal, bgVal⟩ ∧
    (⟨bgVal, bgVal, bgVal⟩ : Vec3q) ≠ red := by
  refine ⟨by decide, by decide, by decide, by decide, ?_, ?_, ?_, ?_, ?_⟩
  · norm_num [baryW, uxOf, uyOf, uzOf]
  · norm_num [baryW, uxOf, uyOf, uzOf]
  · norm_num [baryW, uxOf, uyOf, uzOf]
  · have hw : (Image.new 16 16).width = 16 := rfl
    have hh : (Image.new 16 16).height = 16 := rfl
    rw [triangle_data, hw, hh, if_neg (by decide)]
    rfl
  · intro h
    have := congrArg Vec3q.x h
    norm_num [bgVal, red] at this

/-- C3 (amended): a degenerate *bounding box* (zero width or height) is
detected and the triangle skipped; but a collinear triangle with a bounding
box of nonzero extents is *not* skipped: the fill proceeds with `u.z = 0`
and overwrites exactly the box pixels where both `u.x` and `u.y` vanish with
the caller's color (never a NaN — the NaN/∞ comparisons reject every other
pixel). -/
theorem C3_degenerate (img : Image) (a b c : ℕ × ℕ) (col : Vec3q) :
    (((find_box a b c).1.1 = (find_box a b c).2.1 ∨
      (find_box a b c).1.2 = (find_box a b c).2.2) →
      img.triangle a b c col = img) ∧
    (uzOf a b c = 0 → ∀ k : ℕ,
      (img.triangle a b c col).data k
        = if ¬((find_box a b c).1.1 = (find_box a b c).2.1 ∨
               (find_box a b c).1.2 = (find_box a b c).2.2) ∧
             ∃ p ∈ pixelsInBox (find_box a b c).1
                 (adjMax img.width img.height (find_box a b c).2),
               (uxOf a b c p = 0 ∧ uyOf a b c p = 0) ∧ p.2 * img.width + p.1 = k
          then col else img.data k) := by
  constructor
  · intro hdeg
    unfold Image.triangle
    rw [if_pos hdeg]
  · intro huz k
    rw [triangle_data]
    have hcond : triWrites img.width img.height a b c k ↔
        ¬((find_box a b c).1.1 = (find_box a b c).2.1 ∨
          (find_box a b c).1.2 = (find_box a b c).2.2) ∧
        ∃ p ∈ pixelsInBox (find_box a b c).1
            (adjMax img.width img.height (find_box a b c).2),
          (uxOf a b c p = 0 ∧ uyOf a b c p = 0) ∧ p.2 * img.width + p.1 = k := by
      unfold triWrites
      have hins : ∀ p : ℕ × ℕ, insideP a b c p ↔ (uxOf a b c p = 0 ∧ uyOf a b c p = 0) := by
        intro p
        unfold insideP
        rw [if_pos huz]
      constructor
      · rintro ⟨h1, p, hp, h2, h3⟩
        exact ⟨h1, p, hp, (hins p).mp h2, h3⟩
      · rintro ⟨h1, p, hp, h2, h3⟩
        exact ⟨h1, p, hp, (hins p).mpr h2, h3⟩
    rw [if_congr hcond rfl rfl]

/-- Witness for C3: the degenerate-box case `(0,0), (3,0), (5,0)` (skipped)
and the collinear case `(0,0), (1,1), (2,2)` evaluated at the written
diagonal pixel `(1,1)` of an 8×8 buffer. -/
theorem C3_witness :
    ((find_box (0, 0) (3, 0) (5, 0)).1.2 = (find_box (0, 0) (3, 0) (5, 0)).2.2) ∧
    (Image.new 8 8).triangle (0, 0) (3, 0) (5, 0) red = Image.new 8 8 ∧
    uzOf (0, 0) (1, 1) (2, 2) = 0 ∧
    ((Image.new 8 8).triangle (0, 0) (1, 1) (2, 2) red).data (1 * 8 + 1) = red := by
  refine ⟨by decide, ?_, by decide, ?_⟩
  · exact (C3_degenerate (Image.new 8 8) (0, 0) (3, 0) (5, 0) red).1 (Or.inr (by decide))
  · have h := (C3_degenerate (Image.new 8 8) (0, 0) (1, 1) (2, 2) red).2 (by decide) (1 * 8 + 1)
    have hw : (Image.new 8 8).width = 8 := rfl
    have hh : (Image.new 8 8).height = 8 := rfl
    rw [hw, hh] at h
    rw [h, if_pos (by decide)]

/-- C3 counterexample: the collinear triangle `(0,0), (1,1), (2,2)` has a
bounding box of nonzero width and height, is *not* skipped, and writes the
color to pixel `(1,1)` — refuting "the triangle fill detects the degeneracy
and skips the triangle". -/
theorem C3_counterexample :
    uzOf (0, 0) (1, 1) (2, 2) = 0 ∧
    (find_box (0, 0) (1, 1) (2, 2)).1.1 ≠ (find_box (0, 0) (1, 1) (2, 2)).2.1 ∧
    (find_box (0, 0) (1, 1) (2, 2)).1.2 ≠ (find_box (0, 0) (1, 1) (2, 2)).2.2 ∧
    ((Image.new 8 8).triangle (0, 0) (1, 1) (2, 2) red).data (1 * 8 + 1) = red ∧
    red ≠ ⟨bgVal, bgVal, bgVal⟩ := by
  refine ⟨by decide, by decide, by decide, ?_, ?_⟩
  · have hw : (Image.new 8 8).width = 8 := rfl
    have hh : (Image.new 8 8).height = 8 := rfl
    rw [triangle_data, hw, hh, if_pos (by decide : triWrites 8 8 (0, 0) (1, 1) (2, 2) (1 * 8 + 1))]
  · intro h
    have := congrArg Vec3q.x h
    norm_num [bgVal, red] at this

/-! ## The vertical flip -/

theorem div_mod_decomp {w m r : ℕ} (hw : 0 < w) (hr : r < w) :
    (m * w + r) / w = m ∧ (m * w + r) % w = r := by
  constructor
  · rw [Nat.mul_comm, Nat.mul_add_div hw, Nat.div_eq_of_lt hr, Nat.add_zero]
  · rw [Nat.mul_comm, Nat.mul_add_mod, Nat.mod_eq_of_lt hr]

theorem self_div_mod (k w : ℕ) : k / w * w + k % w = k := by
  have h := Nat.div_add_mod k w
  rw [Nat.mul_comm] at h
  omega

theorem zone_of_div {w m k : ℕ} (hw : 0 < w) (hk : k / w = m) :
    m * w ≤ k ∧ k < m * w + w := by
  have h1 := self_div_mod k w
  have h2 : k % w < w := Nat.mod_lt k hw
  rw [hk] at h1
  omega

theorem div_of_zone {w m k : ℕ} (hw : 0 < w) (h1 : m * w ≤ k) (h2 : k < m * w + w) :
    k / w = m ∧ k % w = k - m * w := by
  have hr : k - m * w < w := by omega
  have h3 : m * w + (k - m * w) = k := by omega
  obtain ⟨hd, hm⟩ := div_mod_decomp (m := m) hw hr
  rw [h3] at hd hm
  exact ⟨hd, hm⟩

theorem vecSwap_self {α : Type} (f : ℕ → α) (i : ℕ) : vecSwap f i i = f := by
  funext k
  unfold vecSwap
  by_cases h : k = i
  · subst h
    rw [if_pos rfl]
  · rw [if_neg h, if_neg h]

theorem rowSwap_self {α : Type} (f : ℕ → α) (idx w : ℕ) : rowSwap f idx idx w = f := by
  induction w with
  | zero =>
      unfold rowSwap
      rw [List.range_zero, List.foldl_nil]
  | succ w ih =>
      unfold rowSwap at ih ⊢
      rw [List.range_succ, List.foldl_append, List.foldl_cons, List.foldl_nil, ih]
      exact vecSwap_self f (idx + w)

theorem rowSwap_apply_disjoint {α : Type} (idx bidx : ℕ) (f : ℕ → α) :
    ∀ (w k : ℕ), idx + w ≤ bidx →
      rowSwap f idx bidx w k =
        if idx ≤ k ∧ k < idx + w then f (bidx + (k - idx))
        else if bidx ≤ k ∧ k < bidx + w then f (idx + (k - bidx))
        else f k := by
  intro w
  induction w with
  | zero =>
      intro k hLe
      unfold rowSwap
      rw [List.range_zero, List.foldl_nil, if_neg (by omega), if_neg (by omega)]
  | succ w ih =>
      intro k hLe
      have hstep : rowSwap f idx bidx (w + 1)
          = vecSwap (rowSwap f idx bidx w) (idx + w) (bidx + w) := by
        unfold rowSwap
        rw [List.range_succ, List.foldl_append, List.foldl_cons, List.foldl_nil]
      rw [hstep]
      unfold vecSwap
      by_cases h1 : k = idx + w
      · rw [if_pos h1, ih (bidx + w) (by omega), if_neg (by omega), if_neg (by omega),
          if_pos (by omega)]
        congr 1
        omega
      · rw [if_neg h1]
        by_cases h2 : k = bidx + w
        · rw [if_pos h2, ih (idx + w) (by omega), if_neg (by omega), if_neg (by omega),
            if_neg (by omega), if_pos (by omega)]
          congr 1
          omega
        · rw [if_neg h2, ih k (by omega)]
          by_cases hz1 : idx ≤ k ∧ k < idx + w
          · rw [if_pos hz1, if_pos (by omega)]
          · rw [if_neg hz1]
            by_cases hz2 : bidx ≤ k ∧ k < bidx + w
            · rw [if_pos hz2, if_neg (by omega), if_pos (by omega)]
            · rw [if_neg hz2, if_neg (by omega), if_neg (by omega)]

theorem rowSwap_apply {α : Type} (w : ℕ) (f : ℕ → α) (idx bidx : ℕ)
    (hsep : idx = bidx ∨ idx + w ≤ bidx) (k : ℕ) :
    rowSwap f idx bidx w k =
      if idx ≤ k ∧ k < idx + w then f (bidx + (k - idx))
      else if bidx ≤ k ∧ k < bidx + w then f (idx + (k - bidx))
      else f k := by
  rcases hsep with hEq | hLe
  · subst hEq
    rw [rowSwap_self]
    by_cases hz : idx ≤ k ∧ k < idx + w
    · rw [if_pos hz]
      congr 1
      omega
    · rw [if_neg hz, if_neg hz]
  · exact rowSwap_apply_disjoint idx bidx f w k hLe

theorem flipData_steps {α : Type} (w h : ℕ) (f : ℕ → α) :
    ∀ ρ, ρ ≤ (h + 1) / 2 → ∀ k,
      ((List.range ρ).foldl (fun g row => rowSwap g (row * w) ((h - row - 1) * w) w) f) k
        = if k < w * h ∧ (k / w < ρ ∨ h - ρ ≤ k / w) then f (mirrorIdx w h k) else f k := by
  intro ρ
  induction ρ with
  | zero =>
      intro hρ k
      rw [List.range_zero, List.foldl_nil, if_neg]
      rintro ⟨hk, hor | hor⟩
      · exact absurd hor (Nat.not_lt_zero _)
      · rcases Nat.eq_zero_or_pos w with rfl | hw
        · omega
        · have hor' : h ≤ k / w := by omega
          have h1 : h * w ≤ k := (Nat.le_div_iff_mul_le hw).mp hor'
          have h2 : h * w = w * h := Nat.mul_comm h w
          omega
  | succ ρ ih =>
      intro hρ k
      have hρ' : ρ ≤ (h + 1) / 2 := by omega
      have ihk := ih hρ'
      rw [List.range_succ, List.foldl_append, List.foldl_cons, List.foldl_nil]
      rcases Nat.eq_zero_or_pos w with rfl | hw
      · rw [rowSwap_apply 0 _ (ρ * 0) ((h - ρ - 1) * 0) (Or.inl (by ring)) k,
          if_neg (by omega), if_neg (by omega), ihk k]
        by_cases hc : k < 0 * h ∧ (k / 0 < ρ ∨ h - ρ ≤ k / 0)
        · omega
        · rw [if_neg hc, if_neg (by omega)]
      · have hle : ρ ≤ h - 1 - ρ := by omega
        have hh1 : 1 ≤ h := by omega
        have hsep : ρ * w = (h - ρ - 1) * w ∨ ρ * w + w ≤ (h - ρ - 1) * w := by
          rcases Nat.lt_or_ge ρ (h - 1 - ρ) with hlt | hge
          · right
            have h1 : (ρ + 1) * w ≤ (h - ρ - 1) * w :=
              Nat.mul_le_mul_right w (by omega)
            have h2 : (ρ + 1) * w = ρ * w + w := by ring
            omega
          · left
            have : ρ = h - ρ - 1 := by omega
            rw [← this]
        rw [rowSwap_apply w _ (ρ * w) ((h - ρ - 1) * w) hsep k]
        by_cases hA : ρ * w ≤ k ∧ k < ρ * w + w
        · rw [if_pos hA]
          obtain ⟨hkd, hkm⟩ := div_of_zone hw hA.1 hA.2
          have hjzone : (h - ρ - 1) * w + (k - ρ * w) ≥ 0 := by omega
          obtain ⟨hjd, hjm⟩ := div_mod_decomp (m := h - ρ - 1) hw
            (show k - ρ * w < w by omega)
          rw [ihk ((h - ρ - 1) * w + (k - ρ * w)), if_neg]
          · have hk_lt : k < w * h := by
              have h1 : (ρ + 1) * w ≤ h * w := Nat.mul_le_mul_right w (by omega)
              have h2 : (ρ + 1) * w = ρ * w + w := by ring
              have h3 : h * w = w * h := Nat.mul_comm h w
              omega
            rw [if_pos ⟨hk_lt, Or.inl (by omega)⟩]
            unfold mirrorIdx
            rw [hkd, hkm, show h - 1 - ρ = h - ρ - 1 from by omega]
          · rintro ⟨hj1, hj2 | hj2⟩ <;> rw [hjd] at hj2 <;> omega
        · rw [if_neg hA]
          by_cases hB : (h - ρ - 1) * w ≤ k ∧ k < (h - ρ - 1) * w + w
          · rw [if_pos hB]
            obtain ⟨hkd, hkm⟩ := div_of_zone hw hB.1 hB.2
            obtain ⟨hjd, hjm⟩ := div_mod_decomp (m := ρ) hw
              (show k - (h - ρ - 1) * w < w by omega)
            rw [ihk (ρ * w + (k - (h - ρ - 1) * w)), if_neg]
            · have hk_lt : k < w * h := by
                have h1 : (h - ρ - 1 + 1) * w ≤ h * w := Nat.mul_le_mul_right w (by omega)
                have h2 : (h - ρ - 1 + 1) * w = (h - ρ - 1) * w + w := by ring
                have h3 : h * w = w * h := Nat.mul_comm h w
                omega
              rw [if_pos ⟨hk_lt, Or.inr (by omega)⟩]
              unfold mirrorIdx
              rw [hkd, hkm, show h - 1 - (h - ρ - 1) = ρ from by omega]
            · rintro ⟨hj1, hj2 | hj2⟩ <;> rw [hjd] at hj2 <;> omega
          · rw [if_neg hB, ihk k]
            by_cases hc : k < w * h
            · have hkd : k / w ≠ ρ := by
                intro hkd
                exact hA (zone_of_div hw hkd)
              have hkd2 : k / w ≠ h - ρ - 1 := by
                intro hkd
                exact hB (zone_of_div hw hkd)
              by_cases hrow : k / w < ρ ∨ h - ρ ≤ k / w
              · rw [if_pos ⟨hc, hrow⟩, if_pos ⟨hc, by omega⟩]
              · rw [if_neg (by tauto), if_neg]
                rintro ⟨-, hor⟩
                omega
            · rw [if_neg (by tauto), if_neg (by tauto)]

theorem flipData_eq {α : Type} (w h : ℕ) (f : ℕ → α) (k : ℕ) :
    flipData w h f k = if k < w * h then f (mirrorIdx w h k) else f k := by
  unfold flipData
  rw [flipData_steps w h f ((h + 1) / 2) (le_refl _) k]
  by_cases hk : k < w * h
  · rcases Nat.eq_zero_or_pos w with rfl | hw
    · omega
    · have hrow : k / w < h := Nat.div_lt_of_lt_mul (by omega)
      rw [if_pos ⟨hk, by omega⟩, if_pos hk]
  · rw [if_neg (by tauto), if_neg hk]

theorem mirrorIdx_lt {w h k : ℕ} (hw : 0 < w) (hk : k < w * h) :
    mirrorIdx w h k < w * h := by
  have h3 : k % w < w := Nat.mod_lt k hw
  have h5 : 0 < h := by
    rcases Nat.eq_zero_or_pos h with rfl | h5
    · omega
    · exact h5
  unfold mirrorIdx
  generalize hq : k / w = q
  have h4 : h - 1 - q + 1 ≤ h := by omega
  have h6 : (h - 1 - q + 1) * w ≤ h * w := Nat.mul_le_mul_right w h4
  have h7 : (h - 1 - q + 1) * w = (h - 1 - q) * w + w := by ring
  have h8 : h * w = w * h := Nat.mul_comm h w
  omega

theorem mirrorIdx_mirrorIdx {w h k : ℕ} (hw : 0 < w) (hk : k < w * h) :
    mirrorIdx w h (mirrorIdx w h k) = k := by
  have hrow : k / w < h := Nat.div_lt_of_lt_mul hk
  have h3 : k % w < w := Nat.mod_lt k hw
  have hsdm := self_div_mod k w
  unfold mirrorIdx
  generalize hq : k / w = q at hrow hsdm ⊢
  generalize hr : k % w = r at h3 hsdm ⊢
  obtain ⟨hd, hm⟩ := div_mod_decomp (m := h - 1 - q) hw h3
  rw [hd, hm, show h - 1 - (h - 1 - q) = q from by omega]
  exact hsdm

/-- C6: `flip_horizontally` (the row exchange used as the vertical flip)
moves the old pixel `(col, height - 1 - row)` into position `(col, row)`,
and it is an involution: flipping twice restores the framebuffer exactly. -/
theorem C6_flip_involutive :
    (∀ (img : Image) (row col : ℕ), row < img.height → col < img.width →
      img.flip_horizontally.data (row * img.width + col)
        = img.data ((img.height - 1 - row) * img.width + col)) ∧
    (∀ img : Image, img.flip_horizontally.flip_horizontally = img) := by
  constructor
  · intro img row col hrow hcol
    have hw : 0 < img.width := by omega
    show flipData img.width img.height img.data (row * img.width + col) = _
    obtain ⟨hd, hm⟩ := div_mod_decomp (m := row) hw hcol
    have hkin : row * img.width + col < img.width * img.height := by
      have h1 : (row + 1) * img.width ≤ img.height * img.width :=
        Nat.mul_le_mul_right _ (by omega)
      have h2 : (row + 1) * img.width = row * img.width + img.width := by ring
      have h3 : img.height * img.width = img.width * img.height :=
        Nat.mul_comm _ _
      omega
    rw [flipData_eq, if_pos hkin]
    unfold mirrorIdx
    rw [hd, hm]
  · intro img
    refine Image.ext_whd rfl rfl ?_
    funext k
    show flipData img.width img.height (flipData img.width img.height img.data) k
        = img.data k
    rw [flipData_eq]
    by_cases hk : k < img.width * img.height
    · rcases Nat.eq_zero_or_pos img.width with hw | hw
      · rw [hw, Nat.zero_mul] at hk
        omega
      · rw [if_pos hk, flipData_eq, if_pos (mirrorIdx_lt hw hk),
          mirrorIdx_mirrorIdx hw hk]
    · rw [if_neg hk, flipData_eq, if_neg hk]

/-- Witness for C6's pointwise half on a concrete 2×2 framebuffer with a
distinguished pixel. -/
theorem C6_witness :
    (0 : ℕ) < 2 ∧
    ((Image.new 2 2).set 0 0 red).flip_horizontally.data (1 * 2 + 0)
      = ((Image.new 2 2).set 0 0 red).data ((2 - 1 - 1) * 2 + 0) ∧
    ((Image.new 2 2).set 0 0 red).flip_horizontally.flip_horizontally
      = (Image.new 2 2).set 0 0 red := by
  refine ⟨by omega, ?_, (C6_flip_involutive).2 ((Image.new 2 2).set 0 0 red)⟩
  exact (C6_flip_involutive).1 ((Image.new 2 2).set 0 0 red) 1 0 (by decide) (by decide)

/-! ## The line drawer -/

theorem lineRun_symm (q0 q1 : ℕ × ℕ) (h : q0.1 = q1.1 → q0 = q1) :
    lineRun q0 q1 = lineRun q1 q0 := by
  unfold lineRun
  rcases Nat.lt_trichotomy q0.1 q1.1 with hlt | heq | hgt
  · rw [if_neg (by omega), if_pos (by omega)]
  · have hq := h heq
    subst hq
    rfl
  · rw [if_pos (by omega), if_neg (by omega)]

/-- C7: the line drawer writes the same pixel sequence (hence the same
pixel set) from `A` to `B` as from `B` to `A`: both directions normalize to
the identical transposition and left-to-right order, covering horizontal,
vertical, diagonal and arbitrary slopes; in particular for
`(13,20) – (80,40)`. -/
theorem C7_line_symmetric :
    (∀ p0 p1 : ℕ × ℕ, linePixels p0 p1 = linePixels p1 p0) ∧
    linePixels (13, 20) (80, 40) = linePixels (80, 40) (13, 20) := by
  have main : ∀ p0 p1 : ℕ × ℕ, linePixels p0 p1 = linePixels p1 p0 := by
    intro p0 p1
    obtain ⟨x0, y0⟩ := p0
    obtain ⟨x1, y1⟩ := p1
    unfold linePixels
    dsimp only
    have hsx : ((x0 : ℤ) - (x1 : ℤ)).natAbs = ((x1 : ℤ) - (x0 : ℤ)).natAbs := by omega
    have hsy : ((y0 : ℤ) - (y1 : ℤ)).natAbs = ((y1 : ℤ) - (y0 : ℤ)).natAbs := by omega
    by_cases hst : ((x1 : ℤ) - (x0 : ℤ)).natAbs < ((y1 : ℤ) - (y0 : ℤ)).natAbs
    · rw [if_pos hst, if_pos (by rw [hsx, hsy]; exact hst)]
      rw [lineRun_symm (y0, x0) (y1, x1) ?_]
      intro hmaj
      dsimp only at hmaj
      exfalso
      omega
    · rw [if_neg hst, if_neg (by rw [hsx, hsy]; exact hst)]
      rw [lineRun_symm (x0, y0) (x1, y1) ?_]
      intro hmaj
      dsimp only at hmaj
      subst hmaj
      have hy : y0 = y1 := by omega
      rw [hy]
  exact ⟨main, main (13, 20) (80, 40)⟩

/-! ## Serialization -/

theorem channelByte_one : channelByte 1 = 255 := by
  unfold channelByte clamp q0999
  norm_num
  rfl

theorem channelByte_zero : channelByte 0 = 0 := by
  unfold channelByte clamp q0999
  norm_num

theorem channelByte_bg : channelByte bgVal = 25 := by
  unfold channelByte clamp q0999 bgVal
  norm_num
  rfl

theorem pixelString_red : pixelString red = "255 0 0 " := by
  unfold pixelString
  rw [show red.x = 1 from rfl, show red.y = 0 from rfl, show red.z = 0 from rfl,
    channelByte_one, channelByte_zero]
  rfl

theorem pixelString_bg : pixelString ⟨bgVal, bgVal, bgVal⟩ = "25 25 25 " := by
  unfold pixelString
  rw [show (⟨bgVal, bgVal, bgVal⟩ : Vec3q).x = bgVal from rfl,
    show (⟨bgVal, bgVal, bgVal⟩ : Vec3q).y = bgVal from rfl,
    show (⟨bgVal, bgVal, bgVal⟩ : Vec3q).z = bgVal from rfl, channelByte_bg]
  rfl

/-- C5: `Image::write` emits the two-character `P3` magic token, the
dimensions, the maximum channel value 255, then row by row every pixel's
three channels as `trunc(256 * clamp(v, 0, 0.999))`, space-separated with
newline-terminated rows; a fresh 100×100 background buffer with pixel
`(col 52, row 41)` set to red serializes with header `100 100` / `255`,
that pixel reading `255 0 0` and every other pixel `25 25 25` (the
background `0.1` scaled identically). -/
theorem C5_serialization :
    (∀ img : Image,
      img.write
        = "P3\n" ++ (toString img.width ++ " " ++ toString img.height ++ "\n") ++ "255\n"
            ++ String.join ((List.range img.height).map (rowString img)) ∧
      ∀ r : ℕ, rowString img r
        = String.join ((List.range img.width).map fun c =>
            pixelString (img.data (r * img.width + c))) ++ "\n" ∧
      ∀ v : Vec3q, pixelString v
        = toString (channelByte v.x) ++ " " ++ toString (channelByte v.y) ++ " "
            ++ toString (channelByte v.z) ++ " ") ∧
    channelByte 1 = 255 ∧ channelByte 0 = 0 ∧ channelByte bgVal = 25 ∧
    ((Image.new 100 100).set 52 41 red).write
      = "P3\n" ++ "100 100\n" ++ "255\n"
          ++ String.join ((List.range 100).map fun r =>
              String.join ((List.range 100).map fun c =>
                if r = 41 ∧ c = 52 then "255 0 0 " else "25 25 25 ") ++ "\n") := by
  refine ⟨fun img => ⟨rfl, fun r => ⟨rfl, fun v => rfl⟩⟩,
    channelByte_one, channelByte_zero, channelByte_bg, ?_⟩
  have hpix : ∀ r c : ℕ, r < 100 → c < 100 →
      pixelString (((Image.new 100 100).set 52 41 red).data (r * 100 + c))
        = if r = 41 ∧ c = 52 then "255 0 0 " else "25 25 25 " := by
    intro r c hr hc
    have hdata : ((Image.new 100 100).set 52 41 red).data (r * 100 + c)
        = if r = 41 ∧ c = 52 then red else ⟨bgVal, bgVal, bgVal⟩ := by
      rw [Image.set_data, show (Image.new 100 100).width = 100 from rfl]
      by_cases h : r = 41 ∧ c = 52
      · obtain ⟨rfl, rfl⟩ := h
        rw [if_pos rfl, if_pos ⟨rfl, rfl⟩]
      · rw [if_neg ?_, if_neg h]
        · rfl
        · intro hk
          refine h ?_
          have : r * 100 + c = 41 * 100 + 52 := hk
          constructor <;> omega
    rw [hdata]
    by_cases h : r = 41 ∧ c = 52
    · rw [if_pos h, if_pos h, pixelString_red]
    · rw [if_neg h, if_neg h, pixelString_bg]
  unfold Image.write
  have hw100 : ((Image.new 100 100).set 52 41 red).width = 100 := rfl
  have hh100 : ((Image.new 100 100).set 52 41 red).height = 100 := rfl
  rw [hw100, hh100]
  rw [show toString (100 : ℕ) ++ " " ++ toString (100 : ℕ) ++ "\n" = "100 100\n" from rfl]
  refine congrArg (fun s => "P3\n" ++ "100 100\n" ++ "255\n" ++ s) ?_
  refine congrArg String.join (List.map_congr_left ?_)
  intro r hr
  rw [List.mem_range] at hr
  unfold rowString
  rw [hw100]
  refine congrArg (fun s => s ++ "\n") ?_
  refine congrArg String.join (List.map_congr_left ?_)
  intro c hc
  rw [List.mem_range] at hc
  exact hpix r c hr hc

/-! ## The mesh-face pipeline: back-face culling and flat shading -/

/-- C2 (amended): a face whose exact normal–light dot product is strictly
negative (equivalently, whose cross product has `z > 0`) is culled: the
framebuffer is returned unchanged, zero pixels written.  (A face with dot
product exactly zero passes `is_sign_positive` — see `C2_counterexample`.) -/
theorem C2_backface_culling (img : Image) (p1 p2 p3 : Vec3q)
    (h : 0 < (crossQ (v3sub p3 p1) (v3sub p2 p1)).z) :
    objFace img p1 p2 p3 = img := by
  unfold objFace
  rw [if_neg]
  unfold drawsFace
  rintro (h1 | ⟨h1, -, -⟩) <;> linarith

/-- Witness for C2: a concrete back-facing triangle (cross product
`(0, 0, 1)`, intensity `-1`). -/
theorem C2_witness :
    0 < (crossQ (v3sub (⟨1, 0, 0⟩ : Vec3q) ⟨0, 0, 0⟩)
          (v3sub (⟨0, 1, 0⟩ : Vec3q) ⟨0, 0, 0⟩)).z ∧
    objFace (Image.new 800 800) ⟨0, 0, 0⟩ ⟨0, 1, 0⟩ ⟨1, 0, 0⟩ = Image.new 800 800 := by
  have h : 0 < (crossQ (v3sub (⟨1, 0, 0⟩ : Vec3q) ⟨0, 0, 0⟩)
      (v3sub (⟨0, 1, 0⟩ : Vec3q) ⟨0, 0, 0⟩)).z := by
    norm_num [crossQ, v3sub]
  exact ⟨h, C2_backface_culling (Image.new 800 800) ⟨0, 0, 0⟩ ⟨0, 1, 0⟩ ⟨1, 0, 0⟩ h⟩

/-- C2 counterexample: the face `p1 = (-1/2,-1/2,0)`, `p2 = (0,0,1)`,
`p3 = (1/2,1/2,0)` has normal–light dot product exactly `0` (non-positive,
so the claim demands culling), yet the renderer draws it: `is_sign_positive`
holds for the computed `+0.0` intensity, on an 8×8 target the projected
vertices are the collinear screen points `(1,1), (3,3), (5,5)`, and the
diagonal pixel `(2, 2)` is overwritten with black `(0,0,0)`, differing from
the background. -/
theorem C2_counterexample :
    (crossQ (v3sub (⟨1/2, 1/2, 0⟩ : Vec3q) ⟨-1/2, -1/2, 0⟩)
        (v3sub (⟨0, 0, 1⟩ : Vec3q) ⟨-1/2, -1/2, 0⟩)).z = 0 ∧
    (objFace (Image.new 8 8) ⟨-1/2, -1/2, 0⟩ ⟨0, 0, 1⟩ ⟨1/2, 1/2, 0⟩).data
        (2 * 8 + 2) = ⟨0, 0, 0⟩ ∧
    (⟨0, 0, 0⟩ : Vec3q) ≠ ⟨bgVal, bgVal, bgVal⟩ := by
  have hcr : crossQ (v3sub (⟨1/2, 1/2, 0⟩ : Vec3q) ⟨-1/2, -1/2, 0⟩)
      (v3sub (⟨0, 0, 1⟩ : Vec3q) ⟨-1/2, -1/2, 0⟩) = ⟨1, -1, 0⟩ := by
    apply Vec3q.ext_xyz <;> norm_num [crossQ, v3sub]
  refine ⟨by rw [hcr], ?_, ?_⟩
  · simp only [objFace]
    rw [hcr]
    have hdraw : drawsFace ⟨1, -1, 0⟩ := by
      unfold drawsFace
      refine Or.inr ⟨rfl, ?_, ?_⟩
      · intro hc
        have := congrArg Vec3q.x hc
        norm_num at this
      · rintro ⟨hx, -⟩
        norm_num at hx
    rw [if_pos hdraw]
    have hint : faceIntensity ⟨1, -1, 0⟩ = 0 := by
      unfold faceIntensity
      norm_num
    have hcol : v3smul white (faceIntensity ⟨1, -1, 0⟩) = ⟨0, 0, 0⟩ := by
      rw [hint]
      apply Vec3q.ext_xyz <;> norm_num [v3smul, white]
    have ht1 : translate 8 8 ⟨-1/2, -1/2, 0⟩ = (1, 1) := by
      unfold translate
      norm_num [Prod.ext_iff]
      all_goals decide
    have ht2 : translate 8 8 ⟨0, 0, 1⟩ = (3, 3) := by
      unfold translate
      norm_num [Prod.ext_iff]
      all_goals decide
    have ht3 : translate 8 8 ⟨1/2, 1/2, 0⟩ = (5, 5) := by
      unfold translate
      norm_num [Prod.ext_iff]
      all_goals decide
    rw [show (Image.new 8 8).width = 8 from rfl,
      show (Image.new 8 8).height = 8 from rfl, ht1, ht2, ht3, hcol]
    rw [triangle_data, show (Image.new 8 8).width = 8 from rfl,
      show (Image.new 8 8).height = 8 from rfl, if_pos]
    refine ⟨by decide, (2, 2), ?_, by decide, by decide⟩
    rw [show find_box (1, 1) (3, 3) (5, 5) = ((1, 1), (5, 5)) from by decide,
      show adjMax 8 8 ((1, 1), (5, 5)).2 = (5, 5) from by decide,
      mem_pixelsInBox]
    refine ⟨⟨by decide, by decide⟩, by decide, by decide⟩
  · intro hc
    have := congrArg Vec3q.x hc
    norm_num [bgVal] at this

/-- C4 (amended): flat shading writes the uniform color `(i, i, i)` to the
pixels it touches (every pixel either keeps its old value or holds exactly
`(i, i, i)` — one color for the whole triangle, not interpolated), and the
serializer emits for that color the byte `trunc(256 * min(i, 0.999))` on
all three channels (not `trunc(255 * i)` as claimed). -/
theorem C4_flat_shading (img : Image) (a b c : ℕ × ℕ) (i : ℚ) (k : ℕ)
    (h0 : 0 < i) (h1 : i ≤ 1) :
    ((img.triangle a b c ⟨i, i, i⟩).data k = img.data k ∨
     (img.triangle a b c ⟨i, i, i⟩).data k = ⟨i, i, i⟩) ∧
    v3smul white i = ⟨i, i, i⟩ ∧
    channelByte i = (⌊256 * min i q0999⌋).toNat ∧
    pixelString ⟨i, i, i⟩
      = toString (channelByte i) ++ " " ++ toString (channelByte i) ++ " "
          ++ toString (channelByte i) ++ " " := by
  refine ⟨?_, ?_, ?_, rfl⟩
  · rw [triangle_data]
    by_cases h : triWrites img.width img.height a b c k
    · right
      rw [if_pos h]
    · left
      rw [if_neg h]
  · apply Vec3q.ext_xyz <;> simp [v3smul, white]
  · have hclamp : clamp i 0 q0999 = min i q0999 := by
      unfold clamp
      rw [if_neg (by linarith)]
      rcases le_or_lt i q0999 with hle | hgt
      · rw [if_neg (by linarith), min_eq_left hle]
      · rw [if_pos hgt, min_eq_right (le_of_lt hgt)]
    unfold channelByte
    rw [hclamp]

/-- Witness for C4's amended statement at intensity `1/2` (where the
emitted byte is 128, while `trunc(255 * i)` would give 127). -/
theorem C4_witness :
    (0 : ℚ) < 1/2 ∧ ((1 : ℚ)/2 ≤ 1) ∧
    ((((Image.new 4 4).triangle (0, 0) (2, 0) (0, 2) ⟨1/2, 1/2, 1/2⟩).data 0
        = (Image.new 4 4).data 0 ∨
      ((Image.new 4 4).triangle (0, 0) (2, 0) (0, 2) ⟨1/2, 1/2, 1/2⟩).data 0
        = ⟨1/2, 1/2, 1/2⟩) ∧
     v3smul white (1/2) = ⟨1/2, 1/2, 1/2⟩ ∧
     channelByte (1/2) = (⌊256 * min (1/2 : ℚ) q0999⌋).toNat ∧
     pixelString ⟨1/2, 1/2, 1/2⟩
       = toString (channelByte (1/2 : ℚ)) ++ " " ++ toString (channelByte (1/2 : ℚ)) ++ " "
           ++ toString (channelByte (1/2 : ℚ)) ++ " ") :=
  ⟨by norm_num, by norm_num,
   C4_flat_shading (Image.new 4 4) (0, 0) (2, 0) (0, 2) (1/2) 0
     (by norm_num) (by norm_num)⟩

/-- C4 counterexample: the front-facing mesh triangle
`p1 = (-3/4,-1/2,-1/2)`, `p2 = (3/4,1/2,1/2)`, `p3 = (-3/4,1/2,0)` has
cross product `(1/2, 3/4, -3/2)` of length `7/4` (all exact in `f32`) and
intensity `6/7 ∈ (0,1]`; on a 16×16 target it covers pixel `(3,9)`,
whose serialized channel is `trunc(256 * 6/7) = 219`, whereas the claim's
`255 * intensity` truncated gives 218. -/
theorem C4_counterexample :
    faceIntensity (crossQ (v3sub (⟨-3/4, 1/2, 0⟩ : Vec3q) ⟨-3/4, -1/2, -1/2⟩)
        (v3sub (⟨3/4, 1/2, 1/2⟩ : Vec3q) ⟨-3/4, -1/2, -1/2⟩)) = 6/7 ∧
    (0 : ℚ) < 6/7 ∧ (6/7 : ℚ) ≤ 1 ∧
    (objFace (Image.new 16 16) ⟨-3/4, -1/2, -1/2⟩ ⟨3/4, 1/2, 1/2⟩ ⟨-3/4, 1/2, 0⟩).data
        (9 * 16 + 3) = ⟨6/7, 6/7, 6/7⟩ ∧
    channelByte (6/7) = 219 ∧
    (⌊(255 : ℚ) * (6/7)⌋).toNat = 218 ∧
    (219 : ℕ) ≠ 218 := by
  have hcr : crossQ (v3sub (⟨-3/4, 1/2, 0⟩ : Vec3q) ⟨-3/4, -1/2, -1/2⟩)
      (v3sub (⟨3/4, 1/2, 1/2⟩ : Vec3q) ⟨-3/4, -1/2, -1/2⟩) = ⟨1/2, 3/4, -3/2⟩ := by
    apply Vec3q.ext_xyz <;> norm_num [crossQ, v3sub]
  have hint : faceIntensity ⟨1/2, 3/4, -3/2⟩ = 6/7 := by
    unfold faceIntensity dotQ
    rw [show ((⟨1/2, 3/4, -3/2⟩ : Vec3q).x * (⟨1/2, 3/4, -3/2⟩ : Vec3q).x
          + (⟨1/2, 3/4, -3/2⟩ : Vec3q).y * (⟨1/2, 3/4, -3/2⟩ : Vec3q).y
          + (⟨1/2, 3/4, -3/2⟩ : Vec3q).z * (⟨1/2, 3/4, -3/2⟩ : Vec3q).z)
        = 49/16 from by norm_num,
      show Rat.sqrt (49/16 : ℚ) = 7/4 from by norm_num [Rat.sqrt]]
    norm_num
  refine ⟨by rw [hcr, hint], by norm_num, by norm_num, ?_, ?_, ?_, by norm_num⟩
  · simp only [objFace]
    rw [hcr]
    have hdraw : drawsFace ⟨1/2, 3/4, -3/2⟩ := by
      unfold drawsFace
      left
      norm_num
    rw [if_pos hdraw, hint]
    have hcol : v3smul white (6/7 : ℚ) = ⟨6/7, 6/7, 6/7⟩ := by
      apply Vec3q.ext_xyz <;> norm_num [v3smul, white]
    have ht1 : translate 16 16 ⟨-3/4, -1/2, -1/2⟩ = (1, 3) := by
      unfold translate
      norm_num [Prod.ext_iff]
      all_goals decide
    have ht2 : translate 16 16 ⟨3/4, 1/2, 1/2⟩ = (13, 11) := by
      unfold translate
      norm_num [Prod.ext_iff]
      all_goals decide
    have ht3 : translate 16 16 ⟨-3/4, 1/2, 0⟩ = (1, 11) := by
      unfold translate
      norm_num [Prod.ext_iff]
      all_goals decide
    rw [show (Image.new 16 16).width = 16 from rfl,
      show (Image.new 16 16).height = 16 from rfl, ht1, ht2, ht3, hcol]
    rw [triangle_data, show (Image.new 16 16).width = 16 from rfl,
      show (Image.new 16 16).height = 16 from rfl, if_pos]
    refine ⟨by decide, (3, 9), ?_, by decide, by decide⟩
    rw [show find_box (1, 3) (13, 11) (1, 11) = ((1, 3), (13, 11)) from by decide,
      show adjMax 16 16 ((1, 3), (13, 11)).2 = (13, 11) from by decide,
      mem_pixelsInBox]
    refine ⟨⟨by decide, by decide⟩, by decide, by decide⟩
  · unfold channelByte clamp q0999
    norm_num
    rfl
  · norm_num
    rfl

end TinyRenderer
